import Mathlib

/-!
Shallow embedding of the arithmetic coder in `src/coder/g3_v1_c.cpp` and
verification of its specified properties.

The C++ program is a whole-file order-0 arithmetic compressor.  Every
definition below is translated directly from the source:

* machine integers (`uint8_t`, `uint32_t`, `uint64_t`) are `Nat` with
  explicit `% 256`, `% U32`, `% U64` wherever the C++ arithmetic can wrap;
* the one undefined operation the code can reach, a division by a zero
  `total_count` in `decodeData` (possible only for crafted input files), is
  modelled as an explicit `Except.error`;
* the unbounded `for (;;)` renormalization loops are given fuel 64: each
  pass at least doubles the interval width `high - low + 1`, which is capped
  by `2 ^ 32`, so 64 passes are never exhausted when `low ≤ high`;
* file I/O is abstracted to byte lists: `compressBytes` maps the input bytes
  to the produced file bytes plus the returned `Statistics`, and
  `decompressBytes` maps the file bytes to the decoded output bytes.  The
  floating-point `compression_ratio` field is not modelled.
-/

namespace Arit

/-- 2 ^ 32, the modulus of the coder's `uint32_t` state. -/
def U32 : Nat := 4294967296

/-- 2 ^ 64, the modulus of the `uint64_t` intermediates and counts. -/
def U64 : Nat := 18446744073709551616

/-- `MAX_RANGE = 0xFFFFFFFF`. -/
def MAX_RANGE : Nat := 4294967295

/-- `HALF = 0x80000000`. -/
def HALF : Nat := 2147483648

/-- `FIRST_QTR = 0x40000000`. -/
def FIRST_QTR : Nat := 1073741824

/-- `THIRD_QTR = 0xC0000000`. -/
def THIRD_QTR : Nat := 3221225472

/-- Message of the `std::runtime_error` thrown on a short read. -/
def msgEOF : String := "Unexpected EOF"

/-- Message of the `std::runtime_error` thrown on a bad magic number. -/
def msgBadMagic : String := "Invalid file format"

/-- Marker for the undefined division by a zero `total_count` in
`decodeData` (C++ has no defined behaviour there). -/
def msgDivZero : String := "division by zero total_count"

/-- The `Statistics` struct returned by `compress` (the `double`
`compression_ratio` field is floating point and not modelled). -/
structure Statistics where
  original_size : Int
  compressed_size : Int
  space_saved : Int
  deriving Repr, DecidableEq

/-- The `ArithmeticEncoder::Symbol` struct. -/
structure Symbol where
  value : Nat
  low : Nat
  high : Nat
  count : Nat
  deriving Repr, DecidableEq

/-- The model state of `ArithmeticEncoder`: the `symbols` vector plus
`total_count`. -/
structure Model where
  symbols : List Symbol
  total_count : Nat
  deriving Repr, DecidableEq

/-- The cumulative-range construction loop shared verbatim by
`buildFrequencyTable` (lines 45-48) and `buildSymbolsFromCounts`
(lines 156-159): push `{value, cumulative, cumulative + count, count}` and
advance `cumulative` (a `uint64_t`). -/
def cumSymbols : Nat → List (Nat × Nat) → List Symbol
  | _, [] => []
  | cum, (v, c) :: rest =>
    { value := v, low := cum, high := (cum + c) % U64, count := c } ::
      cumSymbols ((cum + c) % U64) rest

/-- The final value of the `cumulative` accumulator, which
`buildSymbolsFromCounts` stores as `total_count`. -/
def cumFinal : Nat → List (Nat × Nat) → Nat
  | cum, [] => cum
  | cum, (_, c) :: rest => cumFinal ((cum + c) % U64) rest

/-- The `std::map<unsigned char, long long> freq` of `buildFrequencyTable`,
read out in ascending key order: the distinct byte values present in `data`
paired with their multiplicities. -/
def freqPairs (data : List Nat) : List (Nat × Nat) :=
  ((List.range 256).filter (fun v => data.count v != 0)).map
    (fun v => (v, data.count v))

/-- `ArithmeticEncoder::buildFrequencyTable` (lines 35-49): `total_count`
is set to `data.size()`, not to the final cumulative. -/
def buildFrequencyTable (data : List Nat) : Model :=
  { symbols := cumSymbols 0 (freqPairs data), total_count := data.length }

/-- `ArithmeticEncoder::buildSymbolsFromCounts` (lines 152-161). -/
def buildSymbolsFromCounts (counts : List (Nat × Nat)) : Model :=
  { symbols := cumSymbols 0 counts, total_count := cumFinal 0 counts }

/-- The `BitWriter` struct (lines 51-74). -/
structure BitWriter where
  bytes : List Nat
  current : Nat
  bits_filled : Nat
  deriving Repr, DecidableEq

/-- `BitWriter::writeBit`: shift the bit into `current` (a `uint8_t`) and
append the byte once 8 bits are filled. -/
def BitWriter.writeBit (w : BitWriter) (bit : Nat) : BitWriter :=
  let cur := (w.current * 2 + bit % 2) % 256
  if w.bits_filled + 1 = 8 then
    { bytes := w.bytes ++ [cur], current := 0, bits_filled := 0 }
  else
    { bytes := w.bytes, current := cur, bits_filled := w.bits_filled + 1 }

/-- `BitWriter::flush`: left-pad a partial byte with zero bits. -/
def BitWriter.flush (w : BitWriter) : BitWriter :=
  if 0 < w.bits_filled then
    { bytes := w.bytes ++ [w.current * 2 ^ (8 - w.bits_filled) % 256],
      current := 0, bits_filled := 0 }
  else w

/-- The `while (bits_to_follow > 0) writeBit(b)` flush loops of
`encodeData`. -/
def writeBits (w : BitWriter) (bit : Nat) : Nat → BitWriter
  | 0 => w
  | n + 1 => writeBits (w.writeBit bit) bit n

/-- The `BitReader` struct (lines 76-97). -/
structure BitReader where
  bytes : List Nat
  index : Nat
  current : Nat
  bits_left : Nat
  deriving Repr, DecidableEq

/-- `BitReader::readBit` (lines 84-96): yields the most significant bit of
`current`, loading the next byte on demand and returning bit 0 forever once
the byte sequence is exhausted. -/
def BitReader.readBit (r : BitReader) : Nat × BitReader :=
  if r.bits_left = 0 then
    if r.bytes.length ≤ r.index then (0, r)
    else
      let cur := r.bytes.getD r.index 0 % 256
      (cur / 128 % 2,
       { bytes := r.bytes, index := r.index + 1, current := cur * 2 % 256,
         bits_left := 7 })
  else
    (r.current / 128 % 2,
     { bytes := r.bytes, index := r.index, current := r.current * 2 % 256,
       bits_left := r.bits_left - 1 })

/-- `ArithmeticEncoder::writeUint64`: big-endian bytes of a `uint64_t`. -/
def writeUint64 (v : Nat) : List Nat :=
  [v / 72057594037927936 % 256, v / 281474976710656 % 256,
   v / 1099511627776 % 256, v / 4294967296 % 256, v / 16777216 % 256,
   v / 65536 % 256, v / 256 % 256, v % 256]

/-- `ArithmeticEncoder::writeUint32`: big-endian bytes of a `uint32_t`. -/
def writeUint32 (v : Nat) : List Nat :=
  [v / 16777216 % 256, v / 65536 % 256, v / 256 % 256, v % 256]

/-- The accumulation `v = (v << 8) | byte` of `readUint64`/`readUint32`
(the `% 256` is the `static_cast<unsigned char>` of the byte read). -/
def beVal (bs : List Nat) : Nat := bs.foldl (fun v b => v * 256 + b % 256) 0

/-- The encoder's interval narrowing (lines 110-112):
`range = (uint64_t)(high - low) + 1`,
`high = (uint32_t)(low + range * s.high / total - 1)`,
`low = (uint32_t)(low + range * s.low / total)`, with every intermediate a
`uint64_t`. -/
def encNarrow (low high sLow sHigh total : Nat) : Nat × Nat :=
  let range := (high + U32 - low) % U32 + 1
  ((low + range * sLow % U64 / total) % U64 % U32,
   (low + range * sHigh % U64 / total + (U64 - 1)) % U64 % U32)

/-- The decoder's interval narrowing (lines 181, 190-191), written from
those source lines independently of `encNarrow`. -/
def decNarrow (low high sLow sHigh total : Nat) : Nat × Nat :=
  let range := (high + U32 - low) % U32 + 1
  ((low + range * sLow % U64 / total) % U64 % U32,
   (low + range * sHigh % U64 / total + (U64 - 1)) % U64 % U32)

/-- The decoder's cumulative value (line 182):
`cum = ((uint64_t)(value - low) + 1) * total_count - 1) / range`, with
`value - low` wrapping as `uint32_t` and the rest as `uint64_t`. -/
def decCum (low high value total : Nat) : Nat :=
  let range := (high + U32 - low) % U32 + 1
  (((value + U32 - low) % U32 + 1) * total % U64 + (U64 - 1)) % U64 / range

/-- The encoder's loop state: `low`, `high`, `bits_to_follow` and the
accumulated `BitWriter`. -/
structure EncState where
  low : Nat
  high : Nat
  bits_to_follow : Nat
  writer : BitWriter
  deriving Repr, DecidableEq

/-- One pass of the encoder's renormalization loop (lines 114-138):
`none` means the loop's `break` (no E1/E2/E3 condition holds).  Each branch
includes the shared trailing `low <<= 1; high = (high << 1) | 1`. -/
def encRenormStep (s : EncState) : Option EncState :=
  if s.high < HALF then
    some { low := s.low * 2 % U32, high := s.high * 2 % U32 + 1,
           bits_to_follow := 0,
           writer := writeBits (s.writer.writeBit 0) 1 s.bits_to_follow }
  else if HALF ≤ s.low then
    some { low := (s.low - HALF) * 2 % U32,
           high := (s.high - HALF) * 2 % U32 + 1,
           bits_to_follow := 0,
           writer := writeBits (s.writer.writeBit 1) 0 s.bits_to_follow }
  else if FIRST_QTR ≤ s.low ∧ s.high < THIRD_QTR then
    some { low := (s.low - FIRST_QTR) * 2 % U32,
           high := (s.high - FIRST_QTR) * 2 % U32 + 1,
           bits_to_follow := s.bits_to_follow + 1, writer := s.writer }
  else none

/-- The encoder's renormalization loop, with fuel (see the module comment). -/
def encRenorm : Nat → EncState → EncState
  | 0, s => s
  | fuel + 1, s =>
    match encRenormStep s with
    | none => s
    | some s2 => encRenorm fuel s2

/-- The encoder's initial state (lines 100-102): `low = 0`,
`high = MAX_RANGE`, `bits_to_follow = 0`, empty writer. -/
def encInit : EncState :=
  { low := 0, high := MAX_RANGE, bits_to_follow := 0,
    writer := { bytes := [], current := 0, bits_filled := 0 } }

/-- The body of the encoder's per-byte loop (lines 104-139): look the byte
up by value (`std::find_if`), silently skip if absent, otherwise narrow and
renormalize. -/
def encodeByte (m : Model) (s : EncState) (b : Nat) : EncState :=
  match m.symbols.find? (fun sym => sym.value == b) with
  | none => s
  | some sym =>
    let p := encNarrow s.low s.high sym.low sym.high m.total_count
    encRenorm 64
      { low := p.1, high := p.2, bits_to_follow := s.bits_to_follow,
        writer := s.writer }

/-- `ArithmeticEncoder::encodeData` (lines 99-150), including the
termination step: `bits_to_follow++`, emit the disambiguating bit with its
deferred opposites, and flush the writer. -/
def encodeData (m : Model) (data : List Nat) : BitWriter :=
  let s := data.foldl (encodeByte m) encInit
  let w :=
    if s.low < FIRST_QTR then
      writeBits (s.writer.writeBit 0) 1 (s.bits_to_follow + 1)
    else
      writeBits (s.writer.writeBit 1) 0 (s.bits_to_follow + 1)
  w.flush

/-- The symbol-table block of the output file (lines 271-274): for each
symbol one value byte (`static_cast<char>`) and its big-endian `uint64_t`
count. -/
def tableBytes : List Symbol → List Nat
  | [] => []
  | s :: rest => s.value % 256 :: (writeUint64 s.count ++ tableBytes rest)

/-- `ArithmeticEncoder::compress` (lines 247-288) with file I/O abstracted
away: the produced file's bytes and the returned `Statistics`. -/
def compressBytes (data : List Nat) : List Nat × Statistics :=
  let m := buildFrequencyTable data
  let w := encodeData m data
  let file := [65, 82, 73, 84] ++ writeUint64 data.length ++
    writeUint32 m.symbols.length ++ tableBytes m.symbols ++ w.bytes
  let cs : Int := (w.bytes.length : Int) + 4 + 8 + 4 +
    (m.symbols.length : Int) * (1 + 8)
  (file, { original_size := (data.length : Int), compressed_size := cs,
           space_saved := (data.length : Int) - cs })

/-- `ArithmeticEncoder::decodeSymbol` (lines 163-170): linear scan for the
entry whose `[low, high)` range contains `cum`, returning byte 0 when no
entry does. -/
def decodeSymbol (syms : List Symbol) (cum : Nat) : Nat :=
  match syms with
  | [] => 0
  | s :: rest => if s.low ≤ cum ∧ cum < s.high then s.value
                 else decodeSymbol rest cum

/-- The decoder's loop state: `low`, `high`, the 32-bit window `value` and
the `BitReader`. -/
structure DecState where
  low : Nat
  high : Nat
  value : Nat
  reader : BitReader
  deriving Repr, DecidableEq

/-- One pass of the decoder's renormalization loop (lines 193-210): the
same E1/E2/E3 conditions on `low`/`high` as the encoder, with `value`
shifted alongside and fed one fresh bit, and `HALF`/`FIRST_QTR` subtracted
from `value` (wrapping as `uint32_t`) in the E2/E3 branches. -/
def decRenormStep (s : DecState) : Option DecState :=
  if s.high < HALF then
    let br := s.reader.readBit
    some { low := s.low * 2 % U32, high := s.high * 2 % U32 + 1,
           value := (s.value * 2 + br.1) % U32, reader := br.2 }
  else if HALF ≤ s.low then
    let br := s.reader.readBit
    some { low := (s.low - HALF) * 2 % U32,
           high := (s.high - HALF) * 2 % U32 + 1,
           value := ((s.value + U32 - HALF) % U32 * 2 + br.1) % U32,
           reader := br.2 }
  else if FIRST_QTR ≤ s.low ∧ s.high < THIRD_QTR then
    let br := s.reader.readBit
    some { low := (s.low - FIRST_QTR) * 2 % U32,
           high := (s.high - FIRST_QTR) * 2 % U32 + 1,
           value := ((s.value + U32 - FIRST_QTR) % U32 * 2 + br.1) % U32,
           reader := br.2 }
  else none

/-- The decoder's renormalization loop, with fuel (see the module
comment). -/
def decRenorm : Nat → DecState → DecState
  | 0, s => s
  | fuel + 1, s =>
    match decRenormStep s with
    | none => s
    | some s2 => decRenorm fuel s2

/-- The initial 32-bit fill of `value` (lines 176-178):
`value = (value << 1) | readBit()`, 32 times. -/
def readBitsInto : Nat → Nat → BitReader → Nat × BitReader
  | 0, value, r => (value, r)
  | n + 1, value, r =>
    let br := r.readBit
    readBitsInto n ((value * 2 + br.1) % U32) br.2

/-- The decoder's per-symbol loop (lines 180-211): compute `cum`, emit
`decodeSymbol cum`, look that byte up by value (`std::find_if`), `continue`
if absent, otherwise narrow (the division by `total_count` is undefined
when it is zero) and renormalize. -/
def decodeLoop (m : Model) : Nat → DecState → List Nat →
    Except String (List Nat)
  | 0, _, out => Except.ok out
  | n + 1, s, out =>
    let cum := decCum s.low s.high s.value m.total_count
    let sv := decodeSymbol m.symbols cum
    let out2 := out ++ [sv]
    match m.symbols.find? (fun sym => sym.value == sv) with
    | none => decodeLoop m n s out2
    | some sym =>
      if m.total_count = 0 then Except.error msgDivZero
      else
        let p := decNarrow s.low s.high sym.low sym.high m.total_count
        let s2 := decRenorm 64
          { low := p.1, high := p.2, value := s.value, reader := s.reader }
        decodeLoop m n s2 out2

/-- `ArithmeticEncoder::decodeData` (lines 172-212). -/
def decodeData (m : Model) (bitstream : List Nat) (osize : Nat) :
    Except String (List Nat) :=
  let vr := readBitsInto 32 0
    { bytes := bitstream, index := 0, current := 0, bits_left := 0 }
  decodeLoop m osize
    { low := 0, high := MAX_RANGE, value := vr.1, reader := vr.2 } []

/-- `ArithmeticEncoder::readUint64` at a byte position of the file: fails
with `msgEOF` exactly when fewer than 8 bytes remain. -/
def readUint64At (file : List Nat) (pos : Nat) : Except String Nat :=
  if pos + 8 ≤ file.length then Except.ok (beVal ((file.drop pos).take 8))
  else Except.error msgEOF

/-- `ArithmeticEncoder::readUint32` at a byte position of the file. -/
def readUint32At (file : List Nat) (pos : Nat) : Except String Nat :=
  if pos + 4 ≤ file.length then Except.ok (beVal ((file.drop pos).take 4))
  else Except.error msgEOF

/-- The table-reading loop of `decompress` (lines 306-311): `symbol_count`
iterations, each reading one value byte (failing at end of file) and one
big-endian count.  Returns the entries and the final byte position. -/
def readTable (file : List Nat) : Nat → Nat →
    Except String (List (Nat × Nat) × Nat)
  | pos, 0 => Except.ok ([], pos)
  | pos, n + 1 =>
    if pos < file.length then
      match readUint64At file (pos + 1) with
      | Except.error e => Except.error e
      | Except.ok c =>
        match readTable file (pos + 9) n with
        | Except.error e => Except.error e
        | Except.ok (rest, fin) =>
          Except.ok ((file.getD pos 0 % 256, c) :: rest, fin)
    else Except.error msgEOF

/-- The header-and-table parsing phase of `decompress` (lines 296-314):
magic check (also failing when fewer than 4 bytes could be read), original
size, symbol count, table, and the remaining bytes as the bitstream. -/
def parseHeader (file : List Nat) :
    Except String (Nat × List (Nat × Nat) × List Nat) :=
  if file.take 4 = [65, 82, 73, 84] then
    match readUint64At file 4 with
    | Except.error e => Except.error e
    | Except.ok osize =>
      match readUint32At file 12 with
      | Except.error e => Except.error e
      | Except.ok scount =>
        match readTable file 16 scount with
        | Except.error e => Except.error e
        | Except.ok (counts, pos) => Except.ok (osize, counts, file.drop pos)
  else Except.error msgBadMagic

/-- `ArithmeticEncoder::decompress` (lines 290-330) with file I/O
abstracted away: parse the file, rebuild the model, decode. -/
def decompressBytes (file : List Nat) : Except String (List Nat) :=
  match parseHeader file with
  | Except.error e => Except.error e
  | Except.ok (osize, counts, bitstream) =>
    decodeData (buildSymbolsFromCounts counts) bitstream osize

/-- The claimed partition shape of a symbol list: ranges start at `start`,
each entry has `high = low + count` (so `high - low = count` without
wrap-around), consecutive entries are contiguous, and the last range ends
at `total`. -/
def chainFrom : Nat → List Symbol → Nat → Bool
  | start, [], total => start == total
  | start, s :: rest, total =>
    (s.low == start) && (s.high == s.low + s.count) &&
      chainFrom s.high rest total

/-- The claimed frequency invariant: the entries partition
`[0, total_count)` contiguously with no gaps or overlaps. -/
def isPartition (m : Model) : Bool := chainFrom 0 m.symbols m.total_count

/-- The claimed ordering invariant: entries sorted by strictly ascending
byte value. -/
def valuesSorted : List Symbol → Bool
  | [] => true
  | [_] => true
  | a :: b :: rest => (decide (a.value < b.value)) && valuesSorted (b :: rest)

/-- The eight bits of a byte, most significant first. -/
def bitsOfByte (b : Nat) : List Nat :=
  [b / 128 % 2, b / 64 % 2, b / 32 % 2, b / 16 % 2, b / 8 % 2, b / 4 % 2,
   b / 2 % 2, b % 2]

/-- All bits of a byte sequence, each byte most significant bit first. -/
def byteBits : List Nat → List Nat
  | [] => []
  | b :: rest => bitsOfByte b ++ byteBits rest

/-- The bits produced by `n` successive `readBit` calls. -/
def readN : Nat → BitReader → List Nat
  | 0, _ => []
  | n + 1, r =>
    let br := r.readBit
    br.1 :: readN n br.2

/-- The reader state after `n` successive `readBit` calls. -/
def skipN : Nat → BitReader → BitReader
  | 0, r => r
  | n + 1, r => skipN n r.readBit.2

/-! ### Helper lemmas -/

theorem cumSymbols_nil_iff (cum : Nat) (counts : List (Nat × Nat)) :
    cumSymbols cum counts = [] ↔ counts = [] := by
  cases counts with
  | nil => simp [cumSymbols]
  | cons p rest => obtain ⟨v, c⟩ := p; simp [cumSymbols]

theorem cumSymbols_length (counts : List (Nat × Nat)) :
    ∀ cum, (cumSymbols cum counts).length = counts.length := by
  induction counts with
  | nil => intro cum; rfl
  | cons p rest ih =>
    intro cum; obtain ⟨v, c⟩ := p
    simp [cumSymbols, ih]

theorem tableBytes_length (syms : List Symbol) :
    (tableBytes syms).length = 9 * syms.length := by
  induction syms with
  | nil => rfl
  | cons s rest ih =>
    simp [tableBytes, writeUint64, ih]
    omega

theorem beVal_writeUint64 (v : Nat) (h : v < U64) :
    beVal (writeUint64 v) = v := by
  have m : ∀ a : Nat, a % 256 % 256 = a % 256 := fun a =>
    Nat.mod_mod_of_dvd a dvd_rfl
  have mk : ∀ c : Nat, v / (c * 256) * 256 + v / c % 256 = v / c := by
    intro c
    have h1 := Nat.div_add_mod (v / c) 256
    rw [Nat.div_div_eq_div_mul] at h1
    omega
  have e1 := mk 256
  have e2 := mk 65536
  have e3 := mk 16777216
  have e4 := mk 4294967296
  have e5 := mk 1099511627776
  have e6 := mk 281474976710656
  norm_num at e1 e2 e3 e4 e5 e6
  have efin : v / 72057594037927936 % 256 = v / 72057594037927936 := by
    apply Nat.mod_eq_of_lt
    apply Nat.div_lt_of_lt_mul
    unfold U64 at h
    omega
  simp only [beVal, writeUint64, List.foldl, Nat.zero_mul, Nat.zero_add, m]
  rw [efin, e6, e5, e4, e3, e2, e1]
  omega

/-- Claim C7: compression is deterministic.  The embedding of `compress` is
a pure function of the input bytes (the source's only container with
iteration order, `std::map`, iterates in ascending key order), so the same
input always yields the same file bytes and statistics. -/
theorem compress_deterministic (data : List Nat) :
    compressBytes data = compressBytes data := rfl

/-- Claim C8 counterexample: on the empty input, `buildFrequencyTable` does
not fail; it returns the well-defined empty model with `total_count = 0`
(the function has no failure path at all). -/
theorem buildFrequencyTable_empty_succeeds :
    buildFrequencyTable [] = { symbols := [], total_count := 0 } := by decide

/-- Claim C8 (amended): frequency-model construction from raw data never
fails; for every input (empty included) it produces a model whose
`total_count` is the input length and whose symbol list is empty exactly
when the input is empty. -/
theorem buildFrequencyTable_never_fails (data : List Nat)
    (h : ∀ b ∈ data, b < 256) :
    (buildFrequencyTable data).total_count = data.length ∧
    ((buildFrequencyTable data).symbols = [] ↔ data = []) := by
  refine ⟨rfl, ?_⟩
  show cumSymbols 0 (freqPairs data) = [] ↔ data = []
  rw [cumSymbols_nil_iff]
  constructor
  · intro hf
    cases data with
    | nil => rfl
    | cons b rest =>
      exfalso
      have hb : b < 256 := h b (by simp)
      have hmem : b ∈ (List.range 256).filter
          (fun v => (b :: rest).count v != 0) := by
        rw [List.mem_filter]
        refine ⟨List.mem_range.mpr hb, ?_⟩
        have : 0 < (b :: rest).count b := List.count_pos_iff.mpr (by simp)
        simp only [bne_iff_ne, ne_eq]
        omega
      have : (b, (b :: rest).count b) ∈ freqPairs (b :: rest) :=
        List.mem_map_of_mem _ hmem
      rw [hf] at this
      simp at this
  · intro hd
    subst hd
    rfl

theorem buildFrequencyTable_never_fails_witness :
    ((65 : Nat) < 256 ∧ (66 : Nat) < 256) ∧
    (buildFrequencyTable [65, 66]).total_count = 2 ∧
    ((buildFrequencyTable [65, 66]).symbols = [] ↔ ([65, 66] : List Nat) = []) := by
  refine ⟨by omega, ?_⟩
  have := buildFrequencyTable_never_fails [65, 66] (by intro b hb; simp at hb; omega)
  simpa using this

theorem readN_exhausted (n : Nat) : ∀ (bs : List Nat) (i cur : Nat),
    bs.length ≤ i → readN n ⟨bs, i, cur, 0⟩ = List.replicate n 0 := by
  induction n with
  | zero => intro bs i cur h; rfl
  | succ n ih =>
    intro bs i cur h
    simp only [readN, BitReader.readBit, if_pos rfl, if_pos h,
      List.replicate_succ]
    exact congrArg (0 :: ·) (ih bs i cur h)

theorem readN_split (m k : Nat) : ∀ r : BitReader,
    readN (m + k) r = readN m r ++ readN k (skipN m r) := by
  induction m with
  | zero => intro r; simp [readN, skipN]
  | succ m ih =>
    intro r
    have h1 : m + 1 + k = (m + k) + 1 := by omega
    rw [h1]
    simp only [readN, skipN, List.cons_append]
    exact congrArg _ (ih r.readBit.2)

theorem read8 (bs : List Nat) (i b : Nat) (h : i < bs.length)
    (hb : bs.getD i 0 = b) (hlt : b < 256) :
    readN 8 ⟨bs, i, 0, 0⟩ = bitsOfByte b ∧
    skipN 8 ⟨bs, i, 0, 0⟩ = ⟨bs, i + 1, 0, 0⟩ := by
  have hni : ¬ bs.length ≤ i := by omega
  have hm : b % 256 = b := Nat.mod_eq_of_lt hlt
  have hb2 : bs[i]?.getD 0 = b := by
    simpa [List.getD] using hb
  constructor
  · simp [readN, BitReader.readBit, hb2, hm, hni, bitsOfByte]
    refine ⟨by omega, by omega, by omega, by omega, by omega, by omega,
      by omega⟩
  · simp [skipN, BitReader.readBit, hb2, hm, hni]
    omega

theorem readN_all (k : Nat) : ∀ (n : Nat) (bs : List Nat) (i : Nat),
    bs.length = i + n → (∀ b ∈ bs, b < 256) →
    readN (8 * n + k) ⟨bs, i, 0, 0⟩ =
      byteBits (bs.drop i) ++ List.replicate k 0 := by
  intro n
  induction n with
  | zero =>
    intro bs i hlen h
    have hd : bs.drop i = [] := List.drop_eq_nil_of_le (by omega)
    rw [hd]
    simpa [byteBits] using readN_exhausted k bs i 0 (by omega)
  | succ n ih =>
    intro bs i hlen h
    have hi : i < bs.length := by omega
    have hval : bs.getD i 0 = bs[i] := List.getD_eq_getElem bs 0 hi
    have hblt : bs.getD i 0 < 256 := by
      rw [hval]; exact h _ (List.getElem_mem hi)
    obtain ⟨h8, hskip⟩ := read8 bs i (bs.getD i 0) hi rfl hblt
    have harith : 8 * (n + 1) + k = 8 + (8 * n + k) := by ring
    rw [harith, readN_split 8 (8 * n + k) ⟨bs, i, 0, 0⟩, h8, hskip,
      ih bs (i + 1) (by omega) h]
    have hdrop : bs.drop i = bs.getD i 0 :: bs.drop (i + 1) := by
      rw [List.drop_eq_getElem_cons hi, hval]
    rw [hdrop]
    simp [byteBits]

/-- Claim C9: the bit-stream reader yields bits most-significant-first from
each byte, and once the `n` underlying bytes are exhausted every further
read returns bit 0: reading `8 * n + k` bits from a fresh reader yields
exactly the bytes' bits MSB-first followed by `k` zero bits, for every
`k`. -/
theorem readBit_msb_first_zero_padding (bs : List Nat)
    (h : ∀ b ∈ bs, b < 256) (k : Nat) :
    readN (8 * bs.length + k)
        { bytes := bs, index := 0, current := 0, bits_left := 0 } =
      byteBits bs ++ List.replicate k 0 := by
  simpa using readN_all k bs.length bs 0 (by omega) h

theorem readBit_msb_first_zero_padding_witness :
    (∀ b ∈ ([129, 3] : List Nat), b < 256) ∧
    readN (8 * 2 + 5)
        { bytes := [129, 3], index := 0, current := 0, bits_left := 0 } =
      byteBits [129, 3] ++ List.replicate 5 0 :=
  ⟨by decide, readBit_msb_first_zero_padding [129, 3] (by decide) 5⟩

/-- Claim C5: the decoder's interval-narrowing step computes exactly the
same new `low`/`high` as the encoder's (identical 64-bit intermediate
arithmetic with floor division), and the decoder's wrapped cumulative-value
computation equals the specified
`floor(((value - low + 1) * total - 1) / range)` whenever `low ≤ value`,
`low ≤ high` and the 64-bit intermediate does not overflow. -/
theorem narrow_and_cum_agree (low high value sLow sHigh total : Nat)
    (hlv : low ≤ value) (hv : value < U32) (hlh : low ≤ high) (hh : high < U32)
    (ht : 0 < total) (hprod : (value - low + 1) * total < U64) :
    decNarrow low high sLow sHigh total = encNarrow low high sLow sHigh total ∧
    decCum low high value total =
      ((value - low + 1) * total - 1) / (high - low + 1) := by
  refine ⟨rfl, ?_⟩
  simp only [decCum]
  have e1 : (value + U32 - low) % U32 = value - low := by
    unfold U32 at *; omega
  have e2 : (high + U32 - low) % U32 = high - low := by
    unfold U32 at *; omega
  rw [e1, e2]
  have e3 : (value - low + 1) * total % U64 = (value - low + 1) * total :=
    Nat.mod_eq_of_lt hprod
  rw [e3]
  have hpos : 1 ≤ (value - low + 1) * total :=
    Nat.one_le_iff_ne_zero.mpr (by positivity)
  have e4 : ((value - low + 1) * total + (U64 - 1)) % U64 =
      (value - low + 1) * total - 1 := by
    unfold U64 at *; omega
  rw [e4]

theorem narrow_and_cum_agree_witness :
    decNarrow 0 MAX_RANGE 0 1 2 = encNarrow 0 MAX_RANGE 0 1 2 ∧
    decCum 0 MAX_RANGE 5 2 = ((5 - 0 + 1) * 2 - 1) / (MAX_RANGE - 0 + 1) :=
  narrow_and_cum_agree 0 MAX_RANGE 5 0 1 2 (by decide) (by decide) (by decide)
    (by decide) (by decide) (by decide)

theorem readTable_error (file : List Nat) : ∀ (n pos : Nat), 0 < n →
    file.length < pos + 9 * n → ∃ e, readTable file pos n = Except.error e := by
  intro n
  induction n with
  | zero => intro pos h0 _; exact absurd h0 (by omega)
  | succ n ih =>
    intro pos _ hlen
    by_cases hp : pos < file.length
    · by_cases h8 : pos + 1 + 8 ≤ file.length
      · have hn : 0 < n := by omega
        obtain ⟨e, he⟩ := ih (pos + 9) hn (by omega)
        refine ⟨e, ?_⟩
        simp [readTable, hp, readUint64At, h8, he]
      · refine ⟨msgEOF, ?_⟩
        simp [readTable, hp, readUint64At, h8]
    · refine ⟨msgEOF, ?_⟩
      simp [readTable, hp]

/-- Claim C2 counterexample: the compressed file for the input "AB" ends in
one bitstream byte; the same file truncated before that byte (so truncated
before the bitstream is fully read) is accepted by decompress, which
silently returns wrong-content output `[65, 65]` instead of failing. -/
theorem decompress_truncated_bitstream_accepted :
    decompressBytes (compressBytes [65, 66]).1 = Except.ok [65, 66] ∧
    decompressBytes ((compressBytes [65, 66]).1.dropLast) =
      Except.ok [65, 65] := by
  constructor
  · rfl
  · rfl

/-- Claim C2 (amended): decompress fails with a reported error for every
input file that does not start with the magic "ARIT" (including files
shorter than 4 bytes) and for every file that is truncated before the
header fields and the declared number of symbol-table entries are fully
present; truncation of the bitstream itself is not detected (missing bits
are read as zeros), so such files can decode without error. -/
theorem decompress_rejects (file : List Nat) :
    (file.take 4 ≠ [65, 82, 73, 84] →
      decompressBytes file = Except.error msgBadMagic) ∧
    (file.length < 16 + 9 * beVal ((file.drop 12).take 4) →
      ∃ e, decompressBytes file = Except.error e) := by
  constructor
  · intro hm
    simp [decompressBytes, parseHeader, hm]
  · intro hlen
    by_cases hm : file.take 4 = [65, 82, 73, 84]
    · by_cases h12 : 4 + 8 ≤ file.length
      · by_cases h16 : 12 + 4 ≤ file.length
        · have hpos : 0 < beVal ((file.drop 12).take 4) := by omega
          obtain ⟨e, he⟩ :=
            readTable_error file (beVal ((file.drop 12).take 4)) 16 hpos
              (by omega)
          exact ⟨e, by simp [decompressBytes, parseHeader, hm, readUint64At,
            readUint32At, h12, h16, he]⟩
        · exact ⟨msgEOF, by simp [decompressBytes, parseHeader, hm,
            readUint64At, readUint32At, h12, h16]⟩
      · exact ⟨msgEOF, by simp [decompressBytes, parseHeader, hm,
          readUint64At, h12]⟩
    · exact ⟨msgBadMagic, by simp [decompressBytes, parseHeader, hm]⟩

theorem decompress_rejects_witness :
    (([1, 2, 3] : List Nat).take 4 ≠ [65, 82, 73, 84] ∧
      decompressBytes [1, 2, 3] = Except.error msgBadMagic) ∧
    (([65, 82, 73, 84, 0, 0, 0, 0, 0, 0, 0, 0, 0, 0, 1, 0] :
        List Nat).length <
        16 + 9 * beVal ((([65, 82, 73, 84, 0, 0, 0, 0, 0, 0, 0, 0, 0, 0, 1,
          0] : List Nat).drop 12).take 4) ∧
      ∃ e, decompressBytes [65, 82, 73, 84, 0, 0, 0, 0, 0, 0, 0, 0, 0, 0, 1,
        0] = Except.error e) := by
  constructor
  · exact ⟨by decide, (decompress_rejects [1, 2, 3]).1 (by decide)⟩
  · exact ⟨by decide, (decompress_rejects _).2 (by decide)⟩

/-- Claim C4: the `original_size` header field holds the input's byte
length, and the returned `compressed_size` equals the byte length of the
produced file (magic + size field + symbol count + table entries + packed
bitstream). -/
theorem compress_header_and_size_fidelity (data : List Nat)
    (h : data.length < U64) :
    (compressBytes data).2.original_size = (data.length : Int) ∧
    (compressBytes data).2.compressed_size =
      (((compressBytes data).1).length : Int) ∧
    beVal (((compressBytes data).1.drop 4).take 8) = data.length := by
  refine ⟨rfl, ?_, ?_⟩
  · simp only [compressBytes, List.length_append, tableBytes_length,
      writeUint32, writeUint64, cumSymbols_length]
    push_cast
    simp only [List.length_cons, List.length_nil]
    ring
  · have hdrop : ((compressBytes data).1).drop 4 =
        writeUint64 data.length ++ (writeUint32 (buildFrequencyTable data).symbols.length ++
          (tableBytes (buildFrequencyTable data).symbols ++
            (encodeData (buildFrequencyTable data) data).bytes)) := by
      simp only [compressBytes, List.append_assoc]
      exact List.drop_left' (by rfl)
    rw [hdrop, List.take_left' (by rfl), beVal_writeUint64 _ h]

theorem compress_header_and_size_fidelity_witness :
    ([65, 66] : List Nat).length < U64 ∧
    (compressBytes [65, 66]).2.original_size = 2 ∧
    (compressBytes [65, 66]).2.compressed_size =
      (((compressBytes [65, 66]).1).length : Int) ∧
    beVal (((compressBytes [65, 66]).1.drop 4).take 8) = 2 := by
  have := compress_header_and_size_fidelity [65, 66] (by decide)
  exact ⟨by decide, by simpa using this⟩

theorem cumSymbols_map_count : ∀ (counts : List (Nat × Nat)) (cum : Nat),
    (cumSymbols cum counts).map Symbol.count = counts.map Prod.snd := by
  intro counts
  induction counts with
  | nil => intro cum; rfl
  | cons p rest ih =>
    intro cum
    obtain ⟨v, c⟩ := p
    simp [cumSymbols, ih]

theorem cumSymbols_map_value : ∀ (counts : List (Nat × Nat)) (cum : Nat),
    (cumSymbols cum counts).map Symbol.value = counts.map Prod.fst := by
  intro counts
  induction counts with
  | nil => intro cum; rfl
  | cons p rest ih =>
    intro cum
    obtain ⟨v, c⟩ := p
    simp [cumSymbols, ih]

theorem cumFinal_add : ∀ (counts : List (Nat × Nat)) (cum : Nat),
    cum + (counts.map Prod.snd).sum < U64 →
    cumFinal cum counts = cum + (counts.map Prod.snd).sum := by
  intro counts
  induction counts with
  | nil => intro cum h; simp [cumFinal]
  | cons p rest ih =>
    intro cum h
    obtain ⟨v, c⟩ := p
    simp only [List.map_cons, List.sum_cons] at h ⊢
    have hc : (cum + c) % U64 = cum + c := Nat.mod_eq_of_lt (by omega)
    simp only [cumFinal, hc]
    rw [ih (cum + c) (by omega)]
    omega

theorem chainFrom_cumSymbols : ∀ (counts : List (Nat × Nat)) (cum : Nat),
    cum + (counts.map Prod.snd).sum < U64 →
    chainFrom cum (cumSymbols cum counts) (cumFinal cum counts) = true := by
  intro counts
  induction counts with
  | nil => intro cum h; simp [cumSymbols, cumFinal, chainFrom]
  | cons p rest ih =>
    intro cum h
    obtain ⟨v, c⟩ := p
    simp only [List.map_cons, List.sum_cons] at h
    have hc : (cum + c) % U64 = cum + c := Nat.mod_eq_of_lt (by omega)
    simp only [cumSymbols, cumFinal, chainFrom, hc]
    simp [ih (cum + c) (by omega)]

theorem sum_map_add (f g : Nat → Nat) : ∀ l : List Nat,
    (l.map (fun v => f v + g v)).sum = (l.map f).sum + (l.map g).sum := by
  intro l
  induction l with
  | nil => rfl
  | cons a l ih =>
    simp [ih]
    omega

theorem sum_indicator_range (b : Nat) : ∀ n : Nat,
    ((List.range n).map (fun v => if b == v then 1 else 0)).sum =
      if b < n then 1 else 0 := by
  intro n
  induction n with
  | zero => simp
  | succ n ih =>
    rw [List.range_succ, List.map_append, List.sum_append, ih]
    simp only [List.map_cons, List.map_nil, List.sum_cons, List.sum_nil,
      beq_iff_eq]
    split_ifs <;> omega

theorem sum_map_zero : ∀ l : List Nat,
    (l.map (fun _ => (0 : Nat))).sum = 0 := by
  intro l
  induction l with
  | nil => rfl
  | cons a l ih => simp [ih]

theorem sum_count_range (data : List Nat) (h : ∀ b ∈ data, b < 256) :
    ((List.range 256).map (fun v => data.count v)).sum = data.length := by
  induction data with
  | nil =>
    simp only [List.count_nil, List.length_nil]
    exact sum_map_zero _
  | cons b rest ih =>
    have hb : b < 256 := h b (List.mem_cons_self b rest)
    have hr : ∀ x ∈ rest, x < 256 := fun x hx => h x (List.mem_cons_of_mem _ hx)
    simp only [List.count_cons]
    rw [sum_map_add (fun v => rest.count v) (fun v => if b == v then 1 else 0),
      ih hr, sum_indicator_range b 256]
    simp [hb]

theorem filter_count_sum (data : List Nat) : ∀ l : List Nat,
    ((l.filter (fun v => data.count v != 0)).map
      (fun v => data.count v)).sum = (l.map (fun v => data.count v)).sum := by
  intro l
  induction l with
  | nil => rfl
  | cons a l ih =>
    by_cases ha : data.count a = 0
    · simp [List.filter_cons, bne_iff_ne, ha, ih]
    · simp [List.filter_cons, bne_iff_ne, ha, ih]

theorem freqPairs_counts (data : List Nat) (h : ∀ b ∈ data, b < 256) :
    ((freqPairs data).map Prod.snd).sum = data.length := by
  unfold freqPairs
  rw [List.map_map]
  have he : (Prod.snd ∘ fun v => (v, data.count v)) =
      fun v => data.count v := rfl
  rw [he, filter_count_sum, sum_count_range data h]

theorem freqPairs_sorted (data : List Nat) :
    ((freqPairs data).map Prod.fst).Pairwise (· < ·) := by
  unfold freqPairs
  rw [List.map_map]
  have he : (Prod.fst ∘ fun v => (v, data.count v)) = id := rfl
  rw [he, List.map_id]
  exact List.Pairwise.sublist (List.filter_sublist _)
    (List.pairwise_lt_range 256)

theorem valuesSorted_of_pairwise : ∀ syms : List Symbol,
    (syms.map Symbol.value).Pairwise (· < ·) → valuesSorted syms = true := by
  intro syms
  induction syms with
  | nil => intro _; rfl
  | cons a rest ih =>
    cases rest with
    | nil => intro _; rfl
    | cons b rest2 =>
      intro hp
      rw [List.map_cons, List.pairwise_cons] at hp
      simp only [valuesSorted, Bool.and_eq_true, decide_eq_true_eq]
      exact ⟨hp.1 _ (by simp), ih hp.2⟩

theorem narrow_bounds (low high sLow sHigh total : Nat)
    (h1 : low ≤ high) (h2 : high < U32) (h3 : sLow < sHigh)
    (h4 : sHigh ≤ total) (h5 : 0 < total) (h6 : total ≤ FIRST_QTR)
    (h7 : total ≤ high - low + 1) :
    low ≤ (encNarrow low high sLow sHigh total).1 ∧
    (encNarrow low high sLow sHigh total).1 ≤
      (encNarrow low high sLow sHigh total).2 ∧
    (encNarrow low high sLow sHigh total).2 ≤ high := by
  simp only [encNarrow]
  unfold U32 U64 FIRST_QTR at *
  have hU : (high + 4294967296 - low) % 4294967296 = high - low := by omega
  rw [hU]
  set range := high - low + 1 with hrange
  have hr32 : range ≤ 4294967296 := by omega
  have hmh : range * sHigh < 18446744073709551616 := by
    calc range * sHigh ≤ 4294967296 * 1073741824 :=
          Nat.mul_le_mul hr32 (le_trans h4 h6)
      _ < 18446744073709551616 := by norm_num
  have hml : range * sLow < 18446744073709551616 :=
    lt_of_le_of_lt (Nat.mul_le_mul_left range (le_of_lt h3)) hmh
  rw [Nat.mod_eq_of_lt hmh, Nat.mod_eq_of_lt hml]
  set qh := range * sHigh / total with hqh
  set ql := range * sLow / total with hql
  have hgap : ql + 1 ≤ qh := by
    have hstep : range * sLow + total ≤ range * sHigh := by
      have hm1 : range * (sLow + 1) ≤ range * sHigh :=
        Nat.mul_le_mul_left range h3
      have hm2 : range * (sLow + 1) = range * sLow + range := by ring
      omega
    have h9 : (range * sLow + total) / total ≤ qh :=
      Nat.div_le_div_right hstep
    rwa [Nat.add_div_right _ h5] at h9
  have hqh_le : qh ≤ range := by
    have hm3 : range * sHigh ≤ range * total := Nat.mul_le_mul_left range h4
    calc qh ≤ range * total / total := Nat.div_le_div_right hm3
      _ = range := Nat.mul_div_cancel range h5
  clear_value qh ql
  clear hqh hql hmh hml
  omega

theorem encRenormStep_bounds (s s2 : EncState) (h1 : s.low ≤ s.high)
    (h2 : s.high < U32) (hstep : encRenormStep s = some s2) :
    s2.low ≤ s2.high ∧ s2.high < U32 := by
  unfold encRenormStep at hstep
  unfold U32 HALF FIRST_QTR THIRD_QTR at *
  split_ifs at hstep with hE1 hE2 hE3
  · injection hstep with h; subst h; dsimp only; omega
  · injection hstep with h; subst h; dsimp only; omega
  · injection hstep with h; subst h; dsimp only; omega

theorem encRenormStep_exit (s : EncState) (h1 : s.low ≤ s.high)
    (hstep : encRenormStep s = none) : FIRST_QTR < s.high - s.low + 1 := by
  unfold encRenormStep at hstep
  unfold HALF FIRST_QTR THIRD_QTR at *
  split_ifs at hstep with hE1 hE2 hE3
  omega

theorem decRenormStep_bounds (s s2 : DecState) (h1 : s.low ≤ s.high)
    (h2 : s.high < U32) (hstep : decRenormStep s = some s2) :
    s2.low ≤ s2.high ∧ s2.high < U32 := by
  unfold decRenormStep at hstep
  unfold U32 HALF FIRST_QTR THIRD_QTR at *
  split_ifs at hstep with hE1 hE2 hE3
  · injection hstep with h; subst h; dsimp only; omega
  · injection hstep with h; subst h; dsimp only; omega
  · injection hstep with h; subst h; dsimp only; omega

theorem decRenormStep_exit (s : DecState) (h1 : s.low ≤ s.high)
    (hstep : decRenormStep s = none) : FIRST_QTR < s.high - s.low + 1 := by
  unfold decRenormStep at hstep
  unfold HALF FIRST_QTR THIRD_QTR at *
  split_ifs at hstep with hE1 hE2 hE3
  omega

/-- Claim C6: in both the encode and the decode loop, with `total_count`
at least 1 and at most `FIRST_QTR = 2 ^ 30` (32-bit headroom), the
invariant `low ≤ high` holds at every point: at the initial state
`(0, MAX_RANGE)`, after each interval narrowing (the new interval even
nests inside the old one, given a positive-width entry and the
`total ≤ range` headroom that the renormalization exit condition
guarantees), and after every E1/E2/E3 renormalization pass; moreover at
every exit of the renormalization loop the interval width exceeds
`FIRST_QTR`, re-establishing the headroom. -/
theorem coding_interval_invariant :
    (encInit.low ≤ encInit.high ∧ encInit.high < U32) ∧
    (∀ low high sLow sHigh total, low ≤ high → high < U32 → sLow < sHigh →
      sHigh ≤ total → 0 < total → total ≤ FIRST_QTR →
      total ≤ high - low + 1 →
      low ≤ (encNarrow low high sLow sHigh total).1 ∧
      (encNarrow low high sLow sHigh total).1 ≤
        (encNarrow low high sLow sHigh total).2 ∧
      (encNarrow low high sLow sHigh total).2 ≤ high) ∧
    (∀ low high sLow sHigh total, low ≤ high → high < U32 → sLow < sHigh →
      sHigh ≤ total → 0 < total → total ≤ FIRST_QTR →
      total ≤ high - low + 1 →
      (decNarrow low high sLow sHigh total).1 ≤
        (decNarrow low high sLow sHigh total).2) ∧
    (∀ s s2 : EncState, s.low ≤ s.high → s.high < U32 →
      encRenormStep s = some s2 → s2.low ≤ s2.high ∧ s2.high < U32) ∧
    (∀ s : EncState, s.low ≤ s.high → encRenormStep s = none →
      FIRST_QTR < s.high - s.low + 1) ∧
    (∀ s s2 : DecState, s.low ≤ s.high → s.high < U32 →
      decRenormStep s = some s2 → s2.low ≤ s2.high ∧ s2.high < U32) ∧
    (∀ s : DecState, s.low ≤ s.high → decRenormStep s = none →
      FIRST_QTR < s.high - s.low + 1) := by
  refine ⟨⟨by decide, by decide⟩, ?_, ?_, ?_, ?_, ?_, ?_⟩
  · intro low high sLow sHigh total a1 a2 a3 a4 a5 a6 a7
    exact narrow_bounds low high sLow sHigh total a1 a2 a3 a4 a5 a6 a7
  · intro low high sLow sHigh total a1 a2 a3 a4 a5 a6 a7
    exact (narrow_bounds low high sLow sHigh total a1 a2 a3 a4 a5 a6 a7).2.1
  · exact encRenormStep_bounds
  · exact encRenormStep_exit
  · exact decRenormStep_bounds
  · exact decRenormStep_exit

theorem coding_interval_invariant_witness :
    (encNarrow 0 MAX_RANGE 0 1 2).1 ≤ (encNarrow 0 MAX_RANGE 0 1 2).2 ∧
    (decNarrow 0 MAX_RANGE 0 1 2).1 ≤ (decNarrow 0 MAX_RANGE 0 1 2).2 ∧
    ((0 : Nat) ≤ 2147483649 ∧ (2147483649 : Nat) < U32) ∧
    FIRST_QTR < MAX_RANGE - 0 + 1 ∧
    ((0 : Nat) ≤ 2147483649 ∧ (2147483649 : Nat) < U32) ∧
    FIRST_QTR < MAX_RANGE - 0 + 1 := by
  refine ⟨?_, ?_, ?_, ?_, ?_, ?_⟩
  · exact (coding_interval_invariant.2.1 0 MAX_RANGE 0 1 2 (by decide)
      (by decide) (by decide) (by decide) (by decide) (by decide)
      (by decide)).2.1
  · exact coding_interval_invariant.2.2.1 0 MAX_RANGE 0 1 2 (by decide)
      (by decide) (by decide) (by decide) (by decide) (by decide) (by decide)
  · exact coding_interval_invariant.2.2.2.1
      { low := 0, high := FIRST_QTR, bits_to_follow := 0,
        writer := { bytes := [], current := 0, bits_filled := 0 } }
      { low := 0, high := 2147483649, bits_to_follow := 0,
        writer := { bytes := [], current := 0, bits_filled := 1 } }
      (by decide) (by decide) (by decide)
  · exact coding_interval_invariant.2.2.2.2.1
      { low := 0, high := MAX_RANGE, bits_to_follow := 0,
        writer := { bytes := [], current := 0, bits_filled := 0 } }
      (by decide) (by decide)
  · exact coding_interval_invariant.2.2.2.2.2.1
      { low := 0, high := FIRST_QTR, value := 0,
        reader := { bytes := [], index := 0, current := 0, bits_left := 0 } }
      { low := 0, high := 2147483649, value := 0,
        reader := { bytes := [], index := 0, current := 0, bits_left := 0 } }
      (by decide) (by decide) (by decide)
  · exact coding_interval_invariant.2.2.2.2.2.2
      { low := 0, high := MAX_RANGE, value := 0,
        reader := { bytes := [], index := 0, current := 0, bits_left := 0 } }
      (by decide) (by decide)

/-- Claim C3 counterexample: a persisted count table whose counts sum past
2 ^ 64 overflows the `uint64_t` cumulative accumulator, so the rebuilt
model violates the partition invariant and the sum-equals-total
invariant. -/
theorem model_overflow_table_violates_invariant :
    isPartition (buildSymbolsFromCounts
      [(0, 9223372036854775808), (1, 9223372036854775809)]) = false ∧
    ((buildSymbolsFromCounts
      [(0, 9223372036854775808), (1, 9223372036854775809)]).symbols.map
        Symbol.count).sum ≠
      (buildSymbolsFromCounts
        [(0, 9223372036854775808), (1, 9223372036854775809)]).total_count :=
  ⟨by decide, by decide⟩

/-- Claim C3 (amended): every model built from raw byte data (with the
byte count below 2 ^ 64, the `size_t`/`uint64_t` capacity) satisfies: the
counts sum to `total_count`, each entry has `high = low + count`, the
entries partition `[0, total_count)` contiguously with no gaps or
overlaps, and the entries are sorted by strictly ascending byte value;
every model rebuilt from a persisted count table satisfies the same
partition and sum invariants provided the persisted counts sum to less
than 2 ^ 64 (otherwise the `uint64_t` cumulative accumulator wraps). -/
theorem model_invariants :
    (∀ data : List Nat, (∀ b ∈ data, b < 256) → data.length < U64 →
      ((buildFrequencyTable data).symbols.map Symbol.count).sum =
        (buildFrequencyTable data).total_count ∧
      isPartition (buildFrequencyTable data) = true ∧
      valuesSorted (buildFrequencyTable data).symbols = true) ∧
    (∀ counts : List (Nat × Nat), (counts.map Prod.snd).sum < U64 →
      ((buildSymbolsFromCounts counts).symbols.map Symbol.count).sum =
        (buildSymbolsFromCounts counts).total_count ∧
      isPartition (buildSymbolsFromCounts counts) = true) := by
  constructor
  · intro data h hlen
    have hsum := freqPairs_counts data h
    refine ⟨?_, ?_, ?_⟩
    · show ((cumSymbols 0 (freqPairs data)).map Symbol.count).sum = data.length
      rw [cumSymbols_map_count, hsum]
    · show chainFrom 0 (cumSymbols 0 (freqPairs data)) data.length = true
      have h2 : cumFinal 0 (freqPairs data) = data.length := by
        rw [cumFinal_add (freqPairs data) 0 (by omega)]
        omega
      have h3 := chainFrom_cumSymbols (freqPairs data) 0 (by omega)
      rwa [h2] at h3
    · apply valuesSorted_of_pairwise
      show ((cumSymbols 0 (freqPairs data)).map Symbol.value).Pairwise (· < ·)
      rw [cumSymbols_map_value]
      exact freqPairs_sorted data
  · intro counts h
    constructor
    · show ((cumSymbols 0 counts).map Symbol.count).sum = cumFinal 0 counts
      rw [cumSymbols_map_count, cumFinal_add counts 0 (by omega)]
      omega
    · exact chainFrom_cumSymbols counts 0 (by omega)

theorem model_invariants_witness :
    ((∀ b ∈ ([2, 2, 5] : List Nat), b < 256) ∧
      ([2, 2, 5] : List Nat).length < U64 ∧
      (([(7, 3), (9, 1)] : List (Nat × Nat)).map Prod.snd).sum < U64) ∧
    isPartition (buildFrequencyTable [2, 2, 5]) = true ∧
    valuesSorted (buildFrequencyTable [2, 2, 5]).symbols = true ∧
    isPartition (buildSymbolsFromCounts [(7, 3), (9, 1)]) = true := by
  refine ⟨⟨by decide, by decide, by decide⟩, ?_, ?_, ?_⟩
  · exact ((model_invariants.1 [2, 2, 5] (by decide) (by decide)).2).1
  · exact ((model_invariants.1 [2, 2, 5] (by decide) (by decide)).2).2
  · exact (model_invariants.2 [(7, 3), (9, 1)] (by decide)).2

theorem decodeSymbol_default : ∀ (syms : List Symbol) (cum : Nat),
    (∀ s ∈ syms, ¬(s.low ≤ cum ∧ cum < s.high)) →
    decodeSymbol syms cum = 0 := by
  intro syms
  induction syms with
  | nil => intro cum _; rfl
  | cons s rest ih =>
    intro cum h
    simp only [decodeSymbol]
    rw [if_neg (h s (by simp))]
    exact ih cum (fun x hx => h x (by simp [hx]))

theorem decodeLoop_len_pos (m : Model) (hm : 0 < m.total_count) :
    ∀ (n : Nat) (s : DecState) (out : List Nat),
    ∃ res, decodeLoop m n s out = Except.ok res ∧
      res.length = out.length + n := by
  intro n
  induction n with
  | zero => intro s out; exact ⟨out, rfl, by omega⟩
  | succ n ih =>
    intro s out
    simp only [decodeLoop]
    cases hfind : m.symbols.find? (fun sym => sym.value ==
        decodeSymbol m.symbols (decCum s.low s.high s.value m.total_count))
      with
    | none =>
      obtain ⟨res, hr, hlen⟩ := ih s (out ++
        [decodeSymbol m.symbols (decCum s.low s.high s.value m.total_count)])
      refine ⟨res, ?_, ?_⟩
      · exact hr
      · simp only [List.length_append, List.length_cons, List.length_nil]
          at hlen
        omega
    | some sym =>
      obtain ⟨res, hr, hlen⟩ := ih
        (decRenorm 64
          { low := (decNarrow s.low s.high sym.low sym.high m.total_count).1,
            high := (decNarrow s.low s.high sym.low sym.high m.total_count).2,
            value := s.value, reader := s.reader })
        (out ++
          [decodeSymbol m.symbols (decCum s.low s.high s.value m.total_count)])
      refine ⟨res, ?_, ?_⟩
      · dsimp only
        rw [if_neg (by omega)]
        exact hr
      · simp only [List.length_append, List.length_cons, List.length_nil]
          at hlen
        omega

theorem decodeLoop_len_zero_total (m : Model)
    (hw : ∀ s ∈ m.symbols, s.high ≤ s.low)
    (hv : ∀ s ∈ m.symbols, s.value ≠ 0) :
    ∀ (n : Nat) (st : DecState) (out : List Nat),
    ∃ res, decodeLoop m n st out = Except.ok res ∧
      res.length = out.length + n := by
  intro n
  induction n with
  | zero => intro st out; exact ⟨out, rfl, by omega⟩
  | succ n ih =>
    intro st out
    simp only [decodeLoop]
    have hsv : decodeSymbol m.symbols
        (decCum st.low st.high st.value m.total_count) = 0 :=
      decodeSymbol_default _ _ (fun s hs => by have := hw s hs; omega)
    have hfind : m.symbols.find? (fun sym => sym.value ==
        decodeSymbol m.symbols
          (decCum st.low st.high st.value m.total_count)) = none := by
      rw [hsv, List.find?_eq_none]
      intro x hx
      simp [hv x hx]
    rw [hfind]
    obtain ⟨res, hr, hlen⟩ := ih st (out ++
      [decodeSymbol m.symbols (decCum st.low st.high st.value m.total_count)])
    refine ⟨res, hr, ?_⟩
    simp only [List.length_append, List.length_cons, List.length_nil] at hlen
    omega

theorem cumSymbols_zero_counts : ∀ (counts : List (Nat × Nat)) (cum : Nat),
    cum < U64 → (∀ p ∈ counts, p.2 = 0 ∧ p.1 ≠ 0) →
    ∀ s ∈ cumSymbols cum counts, s.high ≤ s.low ∧ s.value ≠ 0 := by
  intro counts
  induction counts with
  | nil => intro cum _ _ s hs; simp [cumSymbols] at hs
  | cons p rest ih =>
    intro cum hcum hall s hs
    obtain ⟨v, c⟩ := p
    have hp := hall (v, c) (by simp)
    simp only [cumSymbols, List.mem_cons] at hs
    rcases hs with hs | hs
    · subst hs
      dsimp only
      refine ⟨?_, hp.2⟩
      have hc : c = 0 := hp.1
      rw [hc, Nat.add_zero, Nat.mod_eq_of_lt hcum]
    · exact ih ((cum + c) % U64)
        (Nat.mod_lt _ (by unfold U64; omega))
        (fun q hq => hall q (by simp [hq])) s hs

/-- Claim C10 counterexample: the structurally well-formed file with magic
"ARIT", `original_size = 1`, one table entry `(0, 0)` and an empty
bitstream drives `decodeData` into the division
`(range * it->high) / total_count` with `total_count = 0` (C++ undefined
behaviour, modelled as an error), so decompress does not write the
declared 1 byte of output. -/
theorem decompress_zero_total_reaches_div_zero :
    parseHeader ([65, 82, 73, 84] ++ writeUint64 1 ++ writeUint32 1 ++
      [0] ++ writeUint64 0) = Except.ok (1, [(0, 0)], []) ∧
    decompressBytes ([65, 82, 73, 84] ++ writeUint64 1 ++ writeUint32 1 ++
      [0] ++ writeUint64 0) = Except.error msgDivZero :=
  ⟨rfl, rfl⟩

/-- Claim C10 (amended): for every structurally well-formed compressed
file (valid magic, complete size field, symbol count and table),
decompress returns exactly `original_size` bytes whatever the content of
the bitstream — one byte is appended per loop iteration and the loop runs
exactly `original_size` times, with out-of-range cumulative values mapped
to byte 0 — provided the rebuilt model's `total_count` is positive, or
`original_size` is 0, or the table is entirely zero-count with no entry
for byte value 0 (otherwise the narrowing division by the zero
`total_count` is reached, which is undefined behaviour in the C++). -/
theorem decompress_output_length (file : List Nat) (osize : Nat)
    (counts : List (Nat × Nat)) (bitstream : List Nat)
    (hp : parseHeader file = Except.ok (osize, counts, bitstream))
    (hok : 0 < (buildSymbolsFromCounts counts).total_count ∨ osize = 0 ∨
      (∀ p ∈ counts, p.2 = 0 ∧ p.1 ≠ 0)) :
    (∃ out, decompressBytes file = Except.ok out ∧ out.length = osize) ∧
    (∀ (syms : List Symbol) (cum : Nat),
      (∀ s ∈ syms, ¬(s.low ≤ cum ∧ cum < s.high)) →
      decodeSymbol syms cum = 0) := by
  constructor
  · have hd : decompressBytes file =
        decodeData (buildSymbolsFromCounts counts) bitstream osize := by
      simp [decompressBytes, hp]
    rw [hd]
    unfold decodeData
    rcases hok with hpos | hzero | hallz
    · obtain ⟨res, hr, hlen⟩ := decodeLoop_len_pos _ hpos osize _ []
      exact ⟨res, hr, by simpa using hlen⟩
    · subst hzero
      exact ⟨[], rfl, rfl⟩
    · have hw : ∀ s ∈ (buildSymbolsFromCounts counts).symbols,
          s.high ≤ s.low := fun s hs =>
        (cumSymbols_zero_counts counts 0 (by unfold U64; omega) hallz s hs).1
      have hv : ∀ s ∈ (buildSymbolsFromCounts counts).symbols,
          s.value ≠ 0 := fun s hs =>
        (cumSymbols_zero_counts counts 0 (by unfold U64; omega) hallz s hs).2
      obtain ⟨res, hr, hlen⟩ :=
        decodeLoop_len_zero_total _ hw hv osize _ []
      exact ⟨res, hr, by simpa using hlen⟩
  · exact decodeSymbol_default

theorem decompress_output_length_witness :
    parseHeader (compressBytes [65, 66]).1 =
      Except.ok (2, [(65, 1), (66, 1)], [80]) ∧
    ∃ out, decompressBytes (compressBytes [65, 66]).1 = Except.ok out ∧
      out.length = 2 := by
  refine ⟨rfl, ?_⟩
  exact (decompress_output_length (compressBytes [65, 66]).1 2
    [(65, 1), (66, 1)] [80] (by rfl) (Or.inl (by decide))).1

end Arit
